import Mathlib

/-! P434 internal header (`src/p434/utils.h`): constant-time word primitives

A shallow embedding of the scalar layer of the P434 arithmetic core.

* Machine words (`crypto_word_t`) are natural numbers below `2 ^ RADIX c`, where
  `c : Config` records whether `CPU_64_BIT` is defined.  Every operation that can
  wrap around in C is written with an explicit reduction modulo `2 ^ RADIX c`.
* Bytes (`uint8_t`) are natural numbers below `256`.
* The macros `ADDC` / `SUBC` write two output operands; here they return the pair
  `(carryOut, sumOut)` resp. `(borrowOut, differenceOut)`.
-/

namespace P434

/-! ## Build configuration and sizes -/

/-- The two build configurations of the header: `CPU_64_BIT` defined, or not. -/
inductive Config where
  | cpu64
  | cpu32
deriving DecidableEq, Repr

/-- Constant `LSZ`: `sizeof(crypto_word_t)`, the byte size of a limb
(`uint64_t` under `CPU_64_BIT`, `uint32_t` otherwise). -/
def LSZ : Config → Nat
  | .cpu64 => 8
  | .cpu32 => 4

/-- Constant `RADIX`: `sizeof(crypto_word_t)*8`, the word size in bits. -/
def RADIX (c : Config) : Nat := LSZ c * 8

/-- Macro `BITS_TO_BYTES(nbits)`: `(((nbits)+7)/8)`. -/
def BITS_TO_BYTES (nbits : Nat) : Nat := (nbits + 7) / 8

/-- Constant `BITS_FIELD`: bit size of the field. -/
def BITS_FIELD : Nat := 434

/-- Constant `FIELD_BYTESZ`: `BITS_TO_BYTES(BITS_FIELD)`, byte size of the field. -/
def FIELD_BYTESZ : Nat := BITS_TO_BYTES BITS_FIELD

/-! ## Word arithmetic of `crypto_word_t` -/

/-- Unsigned addition `x + y` on `crypto_word_t`, wrapping modulo `2 ^ RADIX`. -/
def word_add (c : Config) (x y : Nat) : Nat := (x + y) % 2 ^ RADIX c

/-- Unsigned subtraction `x - y` on `crypto_word_t`, wrapping modulo `2 ^ RADIX`. -/
def word_sub (c : Config) (x y : Nat) : Nat := (x + 2 ^ RADIX c - y) % 2 ^ RADIX c

/-- Bitwise complement `~t` on `crypto_word_t`. -/
def word_not (c : Config) (t : Nat) : Nat := 2 ^ RADIX c - 1 - t

/-- Conversion `(crypto_word_t)(v)` of an unsigned value. -/
def word_cast (c : Config) (v : Nat) : Nat := v % 2 ^ RADIX c

/-- Macro `M2B(x)`: `((x)>>(RADIX-1))`. -/
def M2B (c : Config) (x : Nat) : Nat := x >>> (RADIX c - 1)

/-! ## Constant-time comparisons -/

/-- Source function `ct_uint_eq`:
```
crypto_word_t t = x ^ y;
t = (t >> 1) - t;
return ((~t) >> (RADIX-1));
``` -/
def ct_uint_eq (c : Config) (x y : Nat) : Nat :=
  let t := x ^^^ y
  let t := word_sub c (t >>> 1) t
  word_not c t >>> (RADIX c - 1)

/-- Source function `constant_time_msb_w`: `0u - (a >> (sizeof(a) * 8 - 1))`. -/
def constant_time_msb_w (c : Config) (a : Nat) : Nat :=
  word_sub c 0 (a >>> (LSZ c * 8 - 1))

/-- Source function `ct_uint_lt`: `constant_time_msb_w(x^((x^y)|((x-y)^x)))`. -/
def ct_uint_lt (c : Config) (x y : Nat) : Nat :=
  constant_time_msb_w c (x ^^^ ((x ^^^ y) ||| (word_sub c x y ^^^ x)))

/-! ## Digit addition and subtraction -/

/-- Macro `ADDC(carryIn, addend1, addend2, carryOut, sumOut)`:
```
crypto_word_t tempReg = (addend1) + (crypto_word_t)(carryIn);
(sumOut) = (addend2) + tempReg;
(carryOut) = M2B(ct_uint_lt(tempReg, (crypto_word_t)(carryIn)) | ct_uint_lt((sumOut), tempReg));
```
The result is `(carryOut, sumOut)`. -/
def ADDC (c : Config) (carryIn addend1 addend2 : Nat) : Nat × Nat :=
  let tempReg := word_add c addend1 (word_cast c carryIn)
  let sumOut := word_add c addend2 tempReg
  let carryOut := M2B c (ct_uint_lt c tempReg (word_cast c carryIn) ||| ct_uint_lt c sumOut tempReg)
  (carryOut, sumOut)

/-- Macro `SUBC(borrowIn, minuend, subtrahend, borrowOut, differenceOut)`:
```
crypto_word_t tempReg = (minuend) - (subtrahend);
crypto_word_t borrowReg = M2B(ct_uint_lt((minuend), (subtrahend)));
borrowReg |= ((borrowIn) & ct_uint_eq(tempReg, 0));
(differenceOut) = tempReg - (crypto_word_t)(borrowIn);
(borrowOut) = borrowReg;
```
The result is `(borrowOut, differenceOut)`. -/
def SUBC (c : Config) (borrowIn minuend subtrahend : Nat) : Nat × Nat :=
  let tempReg := word_sub c minuend subtrahend
  let borrowReg := M2B c (ct_uint_lt c minuend subtrahend)
  let borrowReg := borrowReg ||| (borrowIn &&& ct_uint_eq c tempReg 0)
  let differenceOut := word_sub c tempReg (word_cast c borrowIn)
  (borrowReg, differenceOut)

/-! ## Byte select

`ct_select_8` computes in C `int` after integer promotion.  An `int` is held here as
its 32-bit two's-complement bit pattern (a natural number below `2 ^ 32`), so that
`&`, `|` and `~` are the bitwise operations on patterns. -/

/-- Conversion `(int8_t)v` followed by promotion back to `int`: keep the low eight
bits and sign-extend them to the 32-bit pattern. -/
def int8_cast (v : Nat) : Nat :=
  if v % 256 < 128 then v % 256 else v % 256 + (2 ^ 32 - 256)

/-- Arithmetic right shift `v >> k` of a (signed) `int` pattern: the vacated high
bits are filled with the sign bit. -/
def int_asr (v k : Nat) : Nat :=
  if v < 2 ^ 31 then v >>> k else (v >>> k) ||| (2 ^ 32 - 2 ^ (32 - k))

/-- Bitwise complement `~v` of an `int` pattern. -/
def int_not (v : Nat) : Nat := 2 ^ 32 - 1 - v

/-- Conversion `(uint8_t)v` of an `int` pattern. -/
def uint8_cast (v : Nat) : Nat := v % 256

/-- Source function `ct_select_8`:
```
uint8_t mask = ((int8_t)(flag << 7))>>7;
return (in1&mask) | (in2&(~mask));
``` -/
def ct_select_8 (flag in1 in2 : Nat) : Nat :=
  let mask := uint8_cast (int_asr (int8_cast ((flag <<< 7) % 2 ^ 32)) 7)
  uint8_cast ((in1 &&& mask) ||| (in2 &&& int_not mask))

/-! ## Buffer comparison -/

/-- The loop `while (n--) a |= *pp++ ^ *qq++;` of `ct_mem_eq`: the buffers are the
bytes from the current positions of `pp` and `qq` on, `a` is the `uint8_t`
accumulator.  Reading past the end of a buffer has no defined result (`none`). -/
def ct_mem_eq_loop : List Nat → List Nat → Nat → Nat → Option Nat
  | _, _, 0, a => some a
  | x :: pp, y :: qq, n + 1, a => ct_mem_eq_loop pp qq n (uint8_cast (a ||| (x ^^^ y)))
  | _, _, _ + 1, _ => none

/-- Conversion of a `crypto_word_t` to the `int` return value (two's complement,
32 bits). -/
def int_of_word (v : Nat) : Int :=
  if v % 2 ^ 32 < 2 ^ 31 then ((v % 2 ^ 32 : Nat) : Int) else ((v % 2 ^ 32 : Nat) : Int) - 2 ^ 32

/-- Source function `ct_mem_eq`:
```
const uint8_t *pp = (uint8_t*)p, *qq = (uint8_t*)q;
uint8_t a = 0;
while (n--) a |= *pp++ ^ *qq++;
return (ct_uint_eq(a, 0));
``` -/
def ct_mem_eq (c : Config) (p q : List Nat) (n : Nat) : Option Int :=
  (ct_mem_eq_loop p q n 0).map (fun a => int_of_word (ct_uint_eq c a 0))

/-- A byte buffer: every cell holds a `uint8_t` value. -/
def IsBytes (p : List Nat) : Prop := ∀ b ∈ p, b < 256

instance (p : List Nat) : Decidable (IsBytes p) := by
  unfold IsBytes; infer_instance

/-! ## Field element layout and parameter table -/

/-- Constant `A_max`: number of elements in Alice's strategy. -/
def A_max : Nat := 108

/-- Constant `B_max`: number of elements in Bob's strategy. -/
def B_max : Nat := 137

/-- Constant `NWORDS_FIELD`: number of words of a 434-bit field element
(`7` under `CPU_64_BIT`, `14` otherwise). -/
def NWORDS_FIELD : Config → Nat
  | .cpu64 => 7
  | .cpu32 => 14

/-- Constant `ZERO_WORDS`: number of "0" digits in the least significant part of
p434 + 1 (`3` under `CPU_64_BIT`, `6` otherwise). -/
def ZERO_WORDS : Config → Nat
  | .cpu64 => 3
  | .cpu32 => 6

/-- Macro `U64_TO_WORDS(x)`, the expansion of a 64-bit constant inside a
`crypto_word_t` array literal: `UINT64_C(x)` under `CPU_64_BIT`, and otherwise the two
entries `(uint32_t)(UINT64_C(x) & 0xffffffff), (uint32_t)(UINT64_C(x) >> 32)`. -/
def U64_TO_WORDS : Config → Nat → List Nat
  | .cpu64, x => [x]
  | .cpu32, x => [(x &&& 0xffffffff) % 2 ^ 32, (x >>> 32) % 2 ^ 32]

/-- Integer denoted by a limb array of `w`-bit words, little-endian by word: the
reading of a multi-limb value given in the data model of the specification. -/
def limbs_value (w : Nat) : List Nat → Nat
  | [] => 0
  | x :: xs => x + 2 ^ w * limbs_value w xs

/-- A limb array of the configuration: every entry is a `crypto_word_t`. -/
def IsWords (c : Config) (a : List Nat) : Prop := ∀ x ∈ a, x < 2 ^ RADIX c

instance (c : Config) (a : List Nat) : Decidable (IsWords c a) := by
  unfold IsWords; infer_instance

/-- Word at index `i` of the little-endian word representation of the integer `N`. -/
def word_at (c : Config) (N i : Nat) : Nat := N / 2 ^ (i * RADIX c) % 2 ^ RADIX c

/-- Modelled from the spec: the array literals of the parameter table are not in
`utils.h`; a table given by 64-bit constants is the array literal that lists
`U64_TO_WORDS(x)` for each constant `x` in order. -/
def table_of_u64 (c : Config) (xs : List Nat) : List Nat := xs.flatMap (U64_TO_WORDS c)

/-- Modelled from the spec: the prime of the field (its table entry `prime` is not in
`utils.h`), `p434 = 2^216 * 3^137 - 1`. -/
def p434 : Nat := 2 ^ 216 * 3 ^ 137 - 1

/-! ## Isogeny chains -/

/-- Modelled from the spec: the limb loop of multi-limb addition is not in `utils.h`;
`ADDC` is applied limb by limb from index 0, each `carryOut` being the `carryIn` of
the next limb.  The result is the final carry and the sum limbs. -/
def ADDC_chain (c : Config) : Nat → List Nat → List Nat → Nat × List Nat
  | carry, x :: a, y :: b =>
    let r := ADDC c carry x y
    let rest := ADDC_chain c r.1 a b
    (rest.1, r.2 :: rest.2)
  | carry, _, _ => (carry, [])

/-- Modelled from the spec: the limb loop of multi-limb subtraction is not in
`utils.h`; `SUBC` is applied limb by limb from index 0, each `borrowOut` being the
`borrowIn` of the next limb.  The result is the final borrow and the difference limbs. -/
def SUBC_chain (c : Config) : Nat → List Nat → List Nat → Nat × List Nat
  | borrow, x :: a, y :: b =>
    let r := SUBC c borrow x y
    let rest := SUBC_chain c r.1 a b
    (rest.1, r.2 :: rest.2)
  | borrow, _, _ => (borrow, [])

/-! ## Auxiliary facts on most significant bits -/

theorem radix_cases (c : Config) : RADIX c = 64 ∨ RADIX c = 32 := by
  cases c
  · exact Or.inl rfl
  · exact Or.inr rfl

theorem radix_pos (c : Config) : 0 < RADIX c := by
  rcases radix_cases c with h | h <;> omega

theorem lsz_mul_eight (c : Config) : LSZ c * 8 = RADIX c := rfl

theorem two_pow_pred (w : Nat) (hw : 0 < w) : 2 ^ w = 2 * 2 ^ (w - 1) := by
  obtain ⟨k, rfl⟩ : ∃ k, w = k + 1 := ⟨w - 1, by omega⟩
  simp [pow_succ, Nat.mul_comm]

theorem two_pow_pos (w : Nat) : 0 < 2 ^ w := Nat.pos_pow_of_pos _ (by decide)

/-- Shifting a `w`-bit value right by `w - 1` leaves its top bit. -/
theorem shr_msb (w z : Nat) (hw : 0 < w) (hz : z < 2 ^ w) :
    z >>> (w - 1) = if 2 ^ (w - 1) ≤ z then 1 else 0 := by
  have hH := two_pow_pred w hw
  have hpos := two_pow_pos (w - 1)
  rw [Nat.shiftRight_eq_div_pow]
  split
  · next h =>
    have h1 : 1 ≤ z / 2 ^ (w - 1) := (Nat.le_div_iff_mul_le hpos).2 (by omega)
    have h2 : z / 2 ^ (w - 1) < 2 := Nat.div_lt_of_lt_mul (by omega)
    omega
  · next h =>
    exact Nat.div_eq_of_lt (by omega)

theorem testBit_msb (w z : Nat) (hw : 0 < w) (hz : z < 2 ^ w) :
    z.testBit (w - 1) = decide (2 ^ (w - 1) ≤ z) := by
  rw [Nat.testBit_to_div_mod, ← Nat.shiftRight_eq_div_pow, shr_msb w z hw hz]
  by_cases h : 2 ^ (w - 1) ≤ z <;> simp [h]

/-- Wrap-around subtraction, by cases on whether it borrows. -/
theorem sub_wrap (w x y : Nat) (hx : x < 2 ^ w) (hy : y < 2 ^ w) :
    (x + 2 ^ w - y) % 2 ^ w = if x < y then x + 2 ^ w - y else x - y := by
  split
  · next h => exact Nat.mod_eq_of_lt (by omega)
  · next h =>
    have : x + 2 ^ w - y = (x - y) + 2 ^ w := by omega
    rw [this, Nat.add_mod_right]
    exact Nat.mod_eq_of_lt (by omega)

/-- The two-case argument of the source comment: with equal top bits the top bit of
`d` decides, with different top bits the top bit of `y` decides. -/
theorem lt_formula_core (w x y d : Nat) (hw : 0 < w) (hx : x < 2 ^ w) (hy : y < 2 ^ w)
    (hd : d < 2 ^ w) (b : Prop) [Decidable b]
    (hsame : (2 ^ (w - 1) ≤ x ↔ 2 ^ (w - 1) ≤ y) → (2 ^ (w - 1) ≤ d ↔ b))
    (hdiff : ¬ (2 ^ (w - 1) ≤ x ↔ 2 ^ (w - 1) ≤ y) → (2 ^ (w - 1) ≤ y ↔ b)) :
    (x ^^^ ((x ^^^ y) ||| (d ^^^ x))) >>> (w - 1) = if b then 1 else 0 := by
  have hlt : (x ^^^ ((x ^^^ y) ||| (d ^^^ x))) < 2 ^ w :=
    Nat.xor_lt_two_pow hx (Nat.or_lt_two_pow (Nat.xor_lt_two_pow hx hy) (Nat.xor_lt_two_pow hd hx))
  have hbit := testBit_msb w _ hw hlt
  rw [Nat.testBit_xor, Nat.testBit_or, Nat.testBit_xor, Nat.testBit_xor,
    testBit_msb w x hw hx, testBit_msb w y hw hy, testBit_msb w d hw hd] at hbit
  rw [shr_msb w _ hw hlt]
  by_cases h1 : 2 ^ (w - 1) ≤ x <;> by_cases h2 : 2 ^ (w - 1) ≤ y <;>
    by_cases h3 : 2 ^ (w - 1) ≤ d <;> by_cases hb : b <;>
    simp [h1, h2, h3, hb] at hbit hsame hdiff ⊢ <;> omega

theorem lt_formula_msb (w x y : Nat) (hw : 0 < w) (hx : x < 2 ^ w) (hy : y < 2 ^ w) :
    (x ^^^ ((x ^^^ y) ||| (((x + 2 ^ w - y) % 2 ^ w) ^^^ x))) >>> (w - 1)
      = if x < y then 1 else 0 := by
  have hH := two_pow_pred w hw
  have hd : (x + 2 ^ w - y) % 2 ^ w < 2 ^ w := Nat.mod_lt _ (two_pow_pos w)
  have hs := sub_wrap w x y hx hy
  apply lt_formula_core w x y _ hw hx hy hd
  · intro h
    rw [hs]; split <;> omega
  · intro h
    omega

/-- Value of `ct_uint_lt` on words: the all-ones mask or zero. -/
theorem ct_uint_lt_val (c : Config) (x y : Nat) (hx : x < 2 ^ RADIX c) (hy : y < 2 ^ RADIX c) :
    ct_uint_lt c x y = if x < y then 2 ^ RADIX c - 1 else 0 := by
  have hpos := two_pow_pos (RADIX c)
  unfold ct_uint_lt constant_time_msb_w
  rw [lsz_mul_eight]
  unfold word_sub
  rw [lt_formula_msb (RADIX c) x y (radix_pos c) hx hy]
  by_cases hxy : x < y
  · rw [if_pos hxy, if_pos hxy, Nat.zero_add]
    exact Nat.mod_eq_of_lt (by omega)
  · rw [if_neg hxy, if_neg hxy]
    simp

/-- Value of `ct_uint_eq` on words: one or zero. -/
theorem ct_uint_eq_val (c : Config) (x y : Nat) (hx : x < 2 ^ RADIX c) (hy : y < 2 ^ RADIX c) :
    ct_uint_eq c x y = if x = y then 1 else 0 := by
  have hw := radix_pos c
  have hH := two_pow_pred (RADIX c) hw
  have ht : x ^^^ y < 2 ^ RADIX c := Nat.xor_lt_two_pow hx hy
  have ht2 : (x ^^^ y) >>> 1 < 2 ^ RADIX c := by
    rw [Nat.shiftRight_eq_div_pow]; omega
  have hz : x ^^^ y = 0 ↔ x = y := Nat.xor_eq_zero
  have hs := sub_wrap (RADIX c) ((x ^^^ y) >>> 1) (x ^^^ y) ht2 ht
  have hdiv : (x ^^^ y) >>> 1 = (x ^^^ y) / 2 := by simp [Nat.shiftRight_eq_div_pow]
  unfold ct_uint_eq word_not word_sub
  simp only []
  rw [hs, hdiv]
  by_cases hxy : x = y
  · have h0 : x ^^^ y = 0 := hz.2 hxy
    rw [shr_msb (RADIX c) _ hw (by omega), if_pos hxy, h0]
    rw [if_pos]
    simp
    omega
  · have h0 : x ^^^ y ≠ 0 := fun h => hxy (hz.1 h)
    have hlt : (x ^^^ y) / 2 < x ^^^ y := by omega
    rw [shr_msb (RADIX c) _ hw (by omega), if_neg hxy, if_pos hlt]
    rw [if_neg]
    omega

theorem two_pow_radix (c : Config) :
    2 ^ RADIX c = 18446744073709551616 ∨ 2 ^ RADIX c = 4294967296 := by
  cases c
  · exact Or.inl (by decide)
  · exact Or.inr (by decide)

/-- Applying `M2B` to an OR of two all-ones-or-zero masks is the disjunction as a bit. -/
theorem m2b_mask_or (c : Config) (p q : Prop) [Decidable p] [Decidable q] :
    M2B c ((if p then 2 ^ RADIX c - 1 else 0) ||| (if q then 2 ^ RADIX c - 1 else 0))
      = if p ∨ q then 1 else 0 := by
  have hw := radix_pos c
  have hH := two_pow_pred (RADIX c) hw
  have hpos := two_pow_pos (RADIX c - 1)
  have h1 : M2B c (2 ^ RADIX c - 1) = 1 := by
    unfold M2B
    rw [shr_msb (RADIX c) _ hw (by omega), if_pos (by omega)]
  have h0 : M2B c 0 = 0 := by simp [M2B]
  by_cases hp : p <;> by_cases hq : q <;> simp [hp, hq, h1, h0]

/-- Result of `ADDC` on words with a carry bit, written with ordinary arithmetic. -/
theorem addc_val (c : Config) (carryIn addend1 addend2 : Nat) (hc : carryIn ≤ 1)
    (h1 : addend1 < 2 ^ RADIX c) (h2 : addend2 < 2 ^ RADIX c) :
    ADDC c carryIn addend1 addend2
      = (if 2 ^ RADIX c ≤ addend1 + addend2 + carryIn then 1 else 0,
         (addend1 + addend2 + carryIn) % 2 ^ RADIX c) := by
  have hpos := two_pow_pos (RADIX c)
  have hw := radix_pos c
  have hH := two_pow_pred (RADIX c) hw
  have hcw : word_cast c carryIn = carryIn := Nat.mod_eq_of_lt (by omega)
  have ht : word_add c addend1 carryIn < 2 ^ RADIX c := Nat.mod_lt _ hpos
  have hs : word_add c addend2 (word_add c addend1 carryIn) < 2 ^ RADIX c := Nat.mod_lt _ hpos
  unfold ADDC
  simp only [hcw]
  rw [ct_uint_lt_val c _ _ ht (by omega), ct_uint_lt_val c _ _ hs ht, m2b_mask_or]
  unfold word_add at *
  clear hH hcw
  have hW := two_pow_radix c
  generalize 2 ^ RADIX c = W at *
  refine Prod.ext ?_ ?_
  · simp only []
    rcases hW with rfl | rfl <;> split_ifs <;> omega
  · simp only []
    rcases hW with rfl | rfl <;> omega

/-- Result of `SUBC` on words with a borrow bit, written with ordinary arithmetic. -/
theorem subc_val (c : Config) (borrowIn minuend subtrahend : Nat) (hb : borrowIn ≤ 1)
    (h1 : minuend < 2 ^ RADIX c) (h2 : subtrahend < 2 ^ RADIX c) :
    SUBC c borrowIn minuend subtrahend
      = (if minuend < subtrahend + borrowIn then 1 else 0,
         (minuend + 2 * 2 ^ RADIX c - subtrahend - borrowIn) % 2 ^ RADIX c) := by
  have hpos := two_pow_pos (RADIX c)
  have hw := radix_pos c
  have hH := two_pow_pred (RADIX c) hw
  have hcw : word_cast c borrowIn = borrowIn := Nat.mod_eq_of_lt (by omega)
  have ht : word_sub c minuend subtrahend < 2 ^ RADIX c := Nat.mod_lt _ hpos
  have hm : M2B c (ct_uint_lt c minuend subtrahend) = if minuend < subtrahend then 1 else 0 := by
    have := m2b_mask_or c (minuend < subtrahend) False
    simpa [ct_uint_lt_val c _ _ h1 h2] using this
  have hz : word_sub c minuend subtrahend = 0 ↔ minuend = subtrahend := by
    unfold word_sub
    rw [sub_wrap (RADIX c) _ _ h1 h2]
    split <;> omega
  unfold SUBC
  simp only [hcw, hm]
  rw [ct_uint_eq_val c _ _ ht hpos]
  refine Prod.ext ?_ ?_
  · simp only []
    have hb' : borrowIn = 0 ∨ borrowIn = 1 := by omega
    simp only [hz]
    rcases hb' with rfl | rfl <;> split_ifs <;> first | omega | rfl
  · simp only []
    unfold word_sub
    rw [sub_wrap (RADIX c) _ _ h1 h2]
    clear hH hcw hm hz ht
    have hW := two_pow_radix c
    generalize 2 ^ RADIX c = W at *
    rcases hW with rfl | rfl <;> split_ifs <;> omega

/-! ## Auxiliary facts on `ct_select_8` and `ct_mem_eq` -/

/-- The mask of `ct_select_8` is the least significant bit of `flag`, spread over
the byte. -/
theorem select_mask_val (flag : Nat) :
    uint8_cast (int_asr (int8_cast ((flag <<< 7) % 2 ^ 32)) 7)
      = if flag % 2 = 1 then 255 else 0 := by
  have h7 : (flag <<< 7) % 2 ^ 32 % 256 = (flag % 2) * 128 := by
    rw [Nat.shiftLeft_eq]; omega
  unfold int8_cast
  rw [h7]
  rcases Nat.mod_two_eq_zero_or_one flag with h | h <;> rw [h] <;> decide

theorem and_high_mask_eq_zero (b : Nat) (hb : b < 256) : b &&& int_not 255 = 0 := by
  apply Nat.zero_of_testBit_eq_false
  intro i
  rw [Nat.testBit_and]
  by_cases hi : i < 8
  · have : (int_not 255).testBit i = false := by
      have h8 : i = 0 ∨ i = 1 ∨ i = 2 ∨ i = 3 ∨ i = 4 ∨ i = 5 ∨ i = 6 ∨ i = 7 := by omega
      rcases h8 with rfl | rfl | rfl | rfl | rfl | rfl | rfl | rfl <;> decide
    simp [this]
  · have : b.testBit i = false := by
      apply Nat.testBit_lt_two_pow
      calc b < 2 ^ 8 := hb
        _ ≤ 2 ^ i := Nat.pow_le_pow_right (by decide) (by omega)
    simp [this]

/-- With the low bit of `flag` set, `ct_select_8` returns its first operand; with it
clear, the second. -/
theorem ct_select_8_val (flag in1 in2 : Nat) (h1 : in1 < 256) (h2 : in2 < 256) :
    ct_select_8 flag in1 in2 = if flag % 2 = 1 then in1 else in2 := by
  unfold ct_select_8
  simp only [select_mask_val flag]
  by_cases h : flag % 2 = 1
  · simp only [if_pos h]
    rw [and_high_mask_eq_zero in2 h2, Nat.or_zero]
    have : in1 &&& 255 = in1 % 2 ^ 8 := Nat.and_pow_two_sub_one_eq_mod in1 8
    rw [this]
    unfold uint8_cast
    omega
  · simp only [if_neg h]
    have : in2 &&& int_not 0 = in2 % 2 ^ 32 := Nat.and_pow_two_sub_one_eq_mod in2 32
    rw [this, Nat.and_zero, Nat.zero_or]
    unfold uint8_cast
    omega

theorem or_xor_eq_zero (a x y : Nat) : a ||| (x ^^^ y) = 0 ↔ a = 0 ∧ x = y := by
  constructor
  · intro h
    have hb : ∀ i, a.testBit i = false ∧ (x ^^^ y).testBit i = false := by
      intro i
      have := congrArg (fun z => z.testBit i) h
      simpa [Nat.testBit_or] using this
    exact ⟨Nat.zero_of_testBit_eq_false fun i => (hb i).1,
      Nat.xor_eq_zero.1 (Nat.zero_of_testBit_eq_false fun i => (hb i).2)⟩
  · rintro ⟨rfl, rfl⟩
    simp

/-- Loop invariant of `ct_mem_eq`: within the buffers the loop finishes, and the
accumulator is zero at the end exactly when it was zero and the `n` bytes agree. -/
theorem ct_mem_eq_loop_val (n : Nat) : ∀ (p q : List Nat) (a : Nat), IsBytes p → IsBytes q →
    n ≤ p.length → n ≤ q.length → a < 256 →
    ∃ r, ct_mem_eq_loop p q n a = some r ∧ r < 256 ∧
      (r = 0 ↔ a = 0 ∧ ∀ i, i < n → p[i]? = q[i]?) := by
  induction n with
  | zero =>
    intro p q a _ _ _ _ ha
    exact ⟨a, by simp [ct_mem_eq_loop], ha, by simp⟩
  | succ n ih =>
    intro p q a hp hq hpn hqn ha
    cases p with
    | nil => simp at hpn
    | cons x pp =>
      cases q with
      | nil => simp at hqn
      | cons y qq =>
        have hx : x < 256 := hp x (by simp)
        have hy : y < 256 := hq y (by simp)
        have hacc : a ||| (x ^^^ y) < 2 ^ 8 :=
          Nat.or_lt_two_pow ha (Nat.xor_lt_two_pow hx hy)
        have hcast : uint8_cast (a ||| (x ^^^ y)) = a ||| (x ^^^ y) :=
          Nat.mod_eq_of_lt hacc
        obtain ⟨r, hr, hr256, hiff⟩ := ih pp qq (uint8_cast (a ||| (x ^^^ y)))
          (fun b hb => hp b (by simp [hb])) (fun b hb => hq b (by simp [hb]))
          (by simpa using hpn) (by simpa using hqn) (by rw [hcast]; exact hacc)
        refine ⟨r, by simpa [ct_mem_eq_loop] using hr, hr256, ?_⟩
        rw [hiff, hcast, or_xor_eq_zero]
        constructor
        · rintro ⟨⟨ha0, hxy⟩, hrest⟩
          refine ⟨ha0, ?_⟩
          intro i hi
          cases i with
          | zero => simp [hxy]
          | succ j => simpa using hrest j (by omega)
        · rintro ⟨ha0, hall⟩
          refine ⟨⟨ha0, ?_⟩, ?_⟩
          · simpa using hall 0 (by omega)
          · intro j hj
            simpa using hall (j + 1) (by omega)

/-- The loop reads only the first `n` bytes of either buffer. -/
theorem ct_mem_eq_loop_take (n : Nat) : ∀ (p q : List Nat) (a : Nat),
    ct_mem_eq_loop (p.take n) (q.take n) n a = ct_mem_eq_loop p q n a := by
  induction n with
  | zero => intro p q a; simp [ct_mem_eq_loop]
  | succ n ih =>
    intro p q a
    cases p with
    | nil => cases q <;> simp [ct_mem_eq_loop]
    | cons x pp =>
      cases q with
      | nil => simp [ct_mem_eq_loop]
      | cons y qq => simp [ct_mem_eq_loop, ih]

/-- Result of `ct_mem_eq` on buffers of at least `n` bytes. -/
theorem ct_mem_eq_val (c : Config) (p q : List Nat) (n : Nat) (hp : IsBytes p)
    (hq : IsBytes q) (hpn : n ≤ p.length) (hqn : n ≤ q.length) :
    ct_mem_eq c p q n = some (if ∀ i, i < n → p[i]? = q[i]? then 1 else 0) := by
  obtain ⟨r, hr, hr256, hiff⟩ := ct_mem_eq_loop_val n p q 0 hp hq hpn hqn (by decide)
  have hrw : r < 2 ^ RADIX c := by
    rcases two_pow_radix c with h | h <;> omega
  unfold ct_mem_eq
  rw [hr, Option.map_some', ct_uint_eq_val c r 0 hrw (two_pow_pos _)]
  by_cases hall : ∀ i, i < n → p[i]? = q[i]?
  · have : r = 0 := hiff.2 ⟨rfl, hall⟩
    rw [if_pos hall, if_pos this]
    decide
  · have : r ≠ 0 := fun h => hall (hiff.1 h).2
    rw [if_neg hall, if_neg this]
    decide

/-! ## Comparison primitives -/

/-- C1: for all machine words `x`, `y`, at word width 64 and at word width 32,
`ct_uint_lt(x, y)` is the all-ones word `2^w - 1` when `x < y` as unsigned integers
and `0` otherwise, whatever the most significant bits of `x` and `y` are. -/
theorem ct_uint_lt_spec (c : Config) (x y : Nat) (hx : x < 2 ^ RADIX c)
    (hy : y < 2 ^ RADIX c) :
    (RADIX c = 64 ∨ RADIX c = 32) ∧
      (x < y → ct_uint_lt c x y = 2 ^ RADIX c - 1) ∧
      (¬ x < y → ct_uint_lt c x y = 0) := by
  refine ⟨radix_cases c, ?_, ?_⟩
  · intro h
    rw [ct_uint_lt_val c x y hx hy, if_pos h]
  · intro h
    rw [ct_uint_lt_val c x y hx hy, if_neg h]

/-- Instance of C1 where the top bits differ: `3 < 2^63` at width 64. -/
theorem ct_uint_lt_spec_witness :
    3 < 2 ^ RADIX Config.cpu64 ∧ 2 ^ 63 < 2 ^ RADIX Config.cpu64 ∧
      ct_uint_lt Config.cpu64 3 (2 ^ 63) = 2 ^ 64 - 1 :=
  ⟨by decide, by decide,
    (ct_uint_lt_spec Config.cpu64 3 (2 ^ 63) (by decide) (by decide)).2.1 (by decide)⟩

/-- C2, as stated, fails: on equal words `ct_uint_eq` returns `1`, which is not the
all-ones word, at either width. -/
theorem ct_uint_eq_all_ones_refuted :
    ct_uint_eq Config.cpu64 7 7 = 1 ∧ ct_uint_eq Config.cpu64 7 7 ≠ 2 ^ 64 - 1 ∧
      ct_uint_eq Config.cpu32 7 7 = 1 ∧ ct_uint_eq Config.cpu32 7 7 ≠ 2 ^ 32 - 1 := by
  decide

/-- C2 (amended): for all machine words `x`, `y`, `ct_uint_eq(x, y)` is the word `1`
(only the least significant bit set) when `x` equals `y`, and the all-zeros word
otherwise. -/
theorem ct_uint_eq_one_or_zero (c : Config) (x y : Nat) (hx : x < 2 ^ RADIX c)
    (hy : y < 2 ^ RADIX c) :
    (x = y → ct_uint_eq c x y = 1) ∧ (x ≠ y → ct_uint_eq c x y = 0) := by
  refine ⟨?_, ?_⟩
  · intro h
    rw [ct_uint_eq_val c x y hx hy, if_pos h]
  · intro h
    rw [ct_uint_eq_val c x y hx hy, if_neg h]

/-- Instance of the amended C2 on two different 32-bit words. -/
theorem ct_uint_eq_one_or_zero_witness :
    4 < 2 ^ RADIX Config.cpu32 ∧ 2 ^ 31 < 2 ^ RADIX Config.cpu32 ∧
      ct_uint_eq Config.cpu32 4 (2 ^ 31) = 0 :=
  ⟨by decide, by decide,
    (ct_uint_eq_one_or_zero Config.cpu32 4 (2 ^ 31) (by decide) (by decide)).2 (by decide)⟩

/-- C3: at word width 64 and at word width 32, for all machine words `x`, `y`,
`ct_uint_eq(x, y)` is exactly `1` if `x` equals `y` and exactly `0` otherwise. -/
theorem ct_uint_eq_bool (w : Nat) (c : Config) (x y : Nat) (hw : RADIX c = w)
    (hx : x < 2 ^ w) (hy : y < 2 ^ w) :
    (w = 64 ∨ w = 32) ∧ ct_uint_eq c x y = if x = y then 1 else 0 := by
  subst hw
  exact ⟨radix_cases c, ct_uint_eq_val c x y hx hy⟩

/-- Instance of C3 on equal 64-bit words. -/
theorem ct_uint_eq_bool_witness :
    RADIX Config.cpu64 = 64 ∧ 2 ^ 64 - 1 < 2 ^ 64 ∧
      ct_uint_eq Config.cpu64 (2 ^ 64 - 1) (2 ^ 64 - 1) = 1 :=
  ⟨rfl, by decide,
    (ct_uint_eq_bool 64 Config.cpu64 (2 ^ 64 - 1) (2 ^ 64 - 1) rfl (by decide) (by decide)).2⟩

/-! ## Buffer comparison -/

/-- C4: for every length `n` (zero included) and byte buffers `p`, `q` of at least
`n` bytes, `ct_mem_eq(p, q, n)` returns `1` if `p[i] = q[i]` for all `i < n` and `0`
if some byte among the first `n` differs; buffers that agree with `p` and `q` on
the first `n` bytes give the same result, so later bytes have no influence. -/
theorem ct_mem_eq_spec (c : Config) (p q : List Nat) (n : Nat) (hp : IsBytes p)
    (hq : IsBytes q) (hpn : n ≤ p.length) (hqn : n ≤ q.length) :
    ((∀ i, i < n → p[i]? = q[i]?) → ct_mem_eq c p q n = some 1) ∧
      ((∃ i, i < n ∧ p[i]? ≠ q[i]?) → ct_mem_eq c p q n = some 0) ∧
      (∀ p2 q2 : List Nat, p2.take n = p.take n → q2.take n = q.take n →
        ct_mem_eq c p2 q2 n = ct_mem_eq c p q n) := by
  have hv := ct_mem_eq_val c p q n hp hq hpn hqn
  refine ⟨?_, ?_, ?_⟩
  · intro h
    rw [hv, if_pos h]
  · rintro ⟨i, hi, hne⟩
    rw [hv, if_neg (fun h => hne (h i hi))]
  · intro p2 q2 hp2 hq2
    unfold ct_mem_eq
    rw [← ct_mem_eq_loop_take n p2 q2, ← ct_mem_eq_loop_take n p q, hp2, hq2]

/-- Instance of C4: a mismatch in the first of three compared bytes is reported,
and the fourth bytes are not looked at. -/
theorem ct_mem_eq_spec_witness :
    IsBytes [1, 2, 3, 4] ∧ IsBytes [9, 2, 3, 5] ∧
      ct_mem_eq Config.cpu64 [1, 2, 3, 4] [9, 2, 3, 5] 3 = some 0 ∧
      ct_mem_eq Config.cpu64 [1, 2, 3, 77] [9, 2, 3, 88] 3
        = ct_mem_eq Config.cpu64 [1, 2, 3, 4] [9, 2, 3, 5] 3 :=
  ⟨by decide, by decide,
    (ct_mem_eq_spec Config.cpu64 [1, 2, 3, 4] [9, 2, 3, 5] 3 (by decide) (by decide)
      (by decide) (by decide)).2.1 ⟨0, by decide, by decide⟩,
    (ct_mem_eq_spec Config.cpu64 [1, 2, 3, 4] [9, 2, 3, 5] 3 (by decide) (by decide)
      (by decide) (by decide)).2.2 [1, 2, 3, 77] [9, 2, 3, 88] rfl rfl⟩

/-! ## Byte select -/

/-- C5: for all bytes `a`, `b`, `ct_select_8(0xFF, a, b) = a` and
`ct_select_8(0x00, a, b) = b`. -/
theorem ct_select_8_masks (a b : Nat) (ha : a < 256) (hb : b < 256) :
    ct_select_8 0xFF a b = a ∧ ct_select_8 0x00 a b = b := by
  refine ⟨?_, ?_⟩
  · rw [ct_select_8_val 0xFF a b ha hb, if_pos (by decide)]
  · rw [ct_select_8_val 0x00 a b ha hb, if_neg (by decide)]

/-- Instance of C5 at `a = 5`, `b = 9`. -/
theorem ct_select_8_masks_witness :
    5 < 256 ∧ 9 < 256 ∧ ct_select_8 0xFF 5 9 = 5 ∧ ct_select_8 0x00 5 9 = 9 :=
  ⟨by decide, by decide, ct_select_8_masks 5 9 (by decide) (by decide)⟩

/-- C6, as stated, fails: the flag `1` is not the all-ones byte, yet
`ct_select_8(1, 5, 9)` is `5`, not `9`. -/
theorem ct_select_8_flag_one_refuted :
    (1 : Nat) ≠ 0xFF ∧ ct_select_8 1 5 9 = 5 ∧ ct_select_8 1 5 9 ≠ 9 := by
  decide

/-- C6 (amended): for every byte `flag` and all bytes `a`, `b`, `ct_select_8(flag, a, b)`
returns `a` if `flag` has all bits set (0xFF), returns `b` for every other `flag`
whose least significant bit is clear, and returns `a` for every other `flag` whose
least significant bit is set. -/
theorem ct_select_8_by_flag (flag a b : Nat) (_hf : flag < 256) (ha : a < 256)
    (hb : b < 256) :
    (flag = 0xFF → ct_select_8 flag a b = a) ∧
      (flag ≠ 0xFF → flag % 2 = 0 → ct_select_8 flag a b = b) ∧
      (flag ≠ 0xFF → flag % 2 = 1 → ct_select_8 flag a b = a) := by
  have hv := ct_select_8_val flag a b ha hb
  refine ⟨?_, ?_, ?_⟩
  · rintro rfl
    rw [hv, if_pos (by decide)]
  · intro _ h0
    rw [hv, if_neg (by omega)]
  · intro _ h1
    rw [hv, if_pos h1]

/-- Instance of the amended C6 at the flag `0xFE`, whose low bit is clear. -/
theorem ct_select_8_by_flag_witness :
    0xFE < 256 ∧ 5 < 256 ∧ 9 < 256 ∧ ct_select_8 0xFE 5 9 = 9 :=
  ⟨by decide, by decide, by decide,
    (ct_select_8_by_flag 0xFE 5 9 (by decide) (by decide) (by decide)).2.1
      (by decide) (by decide)⟩

/-! ## Digit addition and subtraction -/

/-- C7: for all words `addend1`, `addend2` of width `w` (64 or 32) and `carryIn` in
`{0, 1}`, `ADDC` yields `carryOut` in `{0, 1}` and a word `sumOut` with
`sumOut + 2^w * carryOut = addend1 + addend2 + carryIn`; so `sumOut` is the sum
modulo `2^w` and `carryOut` is `1` exactly when the sum reaches `2^w`. -/
theorem ADDC_spec (c : Config) (carryIn addend1 addend2 : Nat)
    (hc : carryIn = 0 ∨ carryIn = 1) (h1 : addend1 < 2 ^ RADIX c)
    (h2 : addend2 < 2 ^ RADIX c) :
    ((ADDC c carryIn addend1 addend2).1 = 0 ∨ (ADDC c carryIn addend1 addend2).1 = 1) ∧
      (ADDC c carryIn addend1 addend2).2 < 2 ^ RADIX c ∧
      (ADDC c carryIn addend1 addend2).2 + 2 ^ RADIX c * (ADDC c carryIn addend1 addend2).1
        = addend1 + addend2 + carryIn ∧
      (ADDC c carryIn addend1 addend2).2 = (addend1 + addend2 + carryIn) % 2 ^ RADIX c ∧
      ((ADDC c carryIn addend1 addend2).1 = 1 ↔ 2 ^ RADIX c ≤ addend1 + addend2 + carryIn) := by
  rw [addc_val c carryIn addend1 addend2 (by omega) h1 h2]
  have hW := two_pow_radix c
  generalize 2 ^ RADIX c = W at *
  dsimp only
  by_cases hcar : W ≤ addend1 + addend2 + carryIn
  · rw [if_pos hcar]
    rcases hW with rfl | rfl <;> omega
  · rw [if_neg hcar]
    rcases hW with rfl | rfl <;> omega

/-- Instance of C7: `(2^64 - 1) + (2^64 - 1) + 1` at width 64 gives sum word
`2^64 - 1` and carry `1`. -/
theorem ADDC_spec_witness :
    2 ^ 64 - 1 < 2 ^ RADIX Config.cpu64 ∧
      (ADDC Config.cpu64 1 (2 ^ 64 - 1) (2 ^ 64 - 1)).2
          + 2 ^ RADIX Config.cpu64 * (ADDC Config.cpu64 1 (2 ^ 64 - 1) (2 ^ 64 - 1)).1
        = (2 ^ 64 - 1) + (2 ^ 64 - 1) + 1 :=
  ⟨by decide,
    (ADDC_spec Config.cpu64 1 (2 ^ 64 - 1) (2 ^ 64 - 1) (Or.inr rfl) (by decide)
      (by decide)).2.2.1⟩

/-- C8: for all words `minuend`, `subtrahend` of width `w` (64 or 32) and `borrowIn`
in `{0, 1}`, `SUBC` yields `borrowOut` in `{0, 1}` and a word `differenceOut` with
`differenceOut - 2^w * borrowOut = minuend - subtrahend - borrowIn` over the integers;
so `borrowOut` is `1` exactly when `minuend < subtrahend + borrowIn`. -/
theorem SUBC_spec (c : Config) (borrowIn minuend subtrahend : Nat)
    (hb : borrowIn = 0 ∨ borrowIn = 1) (h1 : minuend < 2 ^ RADIX c)
    (h2 : subtrahend < 2 ^ RADIX c) :
    ((SUBC c borrowIn minuend subtrahend).1 = 0 ∨ (SUBC c borrowIn minuend subtrahend).1 = 1) ∧
      (SUBC c borrowIn minuend subtrahend).2 < 2 ^ RADIX c ∧
      ((SUBC c borrowIn minuend subtrahend).2 : Int)
          - 2 ^ RADIX c * ((SUBC c borrowIn minuend subtrahend).1 : Int)
        = (minuend : Int) - (subtrahend : Int) - (borrowIn : Int) ∧
      ((SUBC c borrowIn minuend subtrahend).1 = 1 ↔ minuend < subtrahend + borrowIn) := by
  rw [subc_val c borrowIn minuend subtrahend (by omega) h1 h2]
  have hW := two_pow_radix c
  have hcast : ((2 : Int) ^ RADIX c) = ((2 ^ RADIX c : Nat) : Int) := by push_cast; rfl
  rw [hcast]
  generalize 2 ^ RADIX c = W at *
  dsimp only
  by_cases hbor : minuend < subtrahend + borrowIn
  · rw [if_pos hbor]
    rcases hW with rfl | rfl <;> omega
  · rw [if_neg hbor]
    rcases hW with rfl | rfl <;> omega

/-- Instance of C8: equal words with an incoming borrow at width 32 give borrow `1`
and difference word `2^32 - 1`. -/
theorem SUBC_spec_witness :
    5 < 2 ^ RADIX Config.cpu32 ∧
      ((SUBC Config.cpu32 1 5 5).1 = 1 ↔ 5 < 5 + 1) ∧
      ((SUBC Config.cpu32 1 5 5).2 : Int)
          - 2 ^ RADIX Config.cpu32 * ((SUBC Config.cpu32 1 5 5).1 : Int)
        = (5 : Int) - (5 : Int) - (1 : Int) :=
  ⟨by decide,
    (SUBC_spec Config.cpu32 1 5 5 (Or.inr rfl) (by decide) (by decide)).2.2.2,
    (SUBC_spec Config.cpu32 1 5 5 (Or.inr rfl) (by decide) (by decide)).2.2.1⟩

/-! ## Field sizes -/

/-- C9: for every natural number `nbits`, `BITS_TO_BYTES(nbits)` is the ceiling of
`nbits / 8`, that is the least `k` with `8 * k ≥ nbits`; and `FIELD_BYTESZ`, defined
as `BITS_TO_BYTES(BITS_FIELD)`, is the ceiling of `434 / 8`. -/
theorem BITS_TO_BYTES_ceil (nbits : Nat) :
    IsLeast {k : Nat | nbits ≤ 8 * k} (BITS_TO_BYTES nbits) ∧
      BITS_TO_BYTES nbits = ⌈(nbits : ℚ) / 8⌉₊ ∧
      FIELD_BYTESZ = BITS_TO_BYTES BITS_FIELD ∧
      FIELD_BYTESZ = ⌈(434 : ℚ) / 8⌉₊ := by
  have hceil : ∀ m : Nat, BITS_TO_BYTES m = ⌈(m : ℚ) / 8⌉₊ := by
    intro m
    apply le_antisymm
    · have h1 : (m : ℚ) / 8 ≤ (⌈(m : ℚ) / 8⌉₊ : ℚ) := Nat.le_ceil _
      have h2 : (m : ℚ) ≤ ((8 * ⌈(m : ℚ) / 8⌉₊ : Nat) : ℚ) := by
        push_cast; linarith
      have h3 : m ≤ 8 * ⌈(m : ℚ) / 8⌉₊ := by exact_mod_cast h2
      unfold BITS_TO_BYTES; omega
    · apply Nat.ceil_le.2
      have h1 : m ≤ 8 * BITS_TO_BYTES m := by unfold BITS_TO_BYTES; omega
      have h2 : (m : ℚ) ≤ 8 * (BITS_TO_BYTES m : ℚ) := by exact_mod_cast h1
      linarith
  refine ⟨⟨?_, ?_⟩, hceil nbits, rfl, ?_⟩
  · show nbits ≤ 8 * BITS_TO_BYTES nbits
    unfold BITS_TO_BYTES; omega
  · intro k hk
    have hk' : nbits ≤ 8 * k := hk
    unfold BITS_TO_BYTES; omega
  · have := hceil BITS_FIELD
    simpa [FIELD_BYTESZ, BITS_FIELD] using this

/-- C10, as stated, fails: `FIELD_BYTESZ` is not `63`. -/
theorem FIELD_BYTESZ_ne_63 : FIELD_BYTESZ ≠ 63 := by
  decide

/-- C10 (amended): elements over GF(p434) are encoded in 55 octets: the field element
byte size `FIELD_BYTESZ = BITS_TO_BYTES(BITS_FIELD)` equals 55. -/
theorem FIELD_BYTESZ_eq_55 :
    FIELD_BYTESZ = BITS_TO_BYTES BITS_FIELD ∧ BITS_FIELD = 434 ∧ FIELD_BYTESZ = 55 := by
  decide

/-! ## Auxiliary facts on limb arrays -/

theorem u64_to_words_cpu32 (x : Nat) (hx : x < 2 ^ 64) :
    U64_TO_WORDS Config.cpu32 x = [x % 2 ^ 32, x / 2 ^ 32] := by
  have hlo : x &&& 0xffffffff = x % 2 ^ 32 := Nat.and_pow_two_sub_one_eq_mod x 32
  have hhi : x >>> 32 = x / 2 ^ 32 := Nat.shiftRight_eq_div_pow x 32
  have hlt : x / 2 ^ 32 < 2 ^ 32 := by omega
  simp only [U64_TO_WORDS, hlo, hhi, Nat.mod_mod, Nat.mod_eq_of_lt hlt]

/-- A table of 64-bit constants denotes the same integer in both expansions. -/
theorem table_of_u64_value (xs : List Nat) (hxs : ∀ v ∈ xs, v < 2 ^ 64) :
    limbs_value 32 (table_of_u64 Config.cpu32 xs) = limbs_value 64 (table_of_u64 Config.cpu64 xs)
      ∧ (table_of_u64 Config.cpu32 xs).length = 2 * xs.length
      ∧ (table_of_u64 Config.cpu64 xs).length = xs.length
      ∧ IsWords Config.cpu32 (table_of_u64 Config.cpu32 xs)
      ∧ IsWords Config.cpu64 (table_of_u64 Config.cpu64 xs) := by
  induction xs with
  | nil => simp [table_of_u64, limbs_value, IsWords]
  | cons x xs ih =>
    have hx : x < 2 ^ 64 := hxs x (by simp)
    obtain ⟨hv, hl32, hl64, hw32, hw64⟩ := ih (fun v hv => hxs v (by simp [hv]))
    unfold table_of_u64 at *
    rw [List.flatMap_cons, List.flatMap_cons, u64_to_words_cpu32 x hx]
    refine ⟨?_, ?_, ?_, ?_, ?_⟩
    · simp only [U64_TO_WORDS, List.cons_append, List.append_eq, List.nil_append, limbs_value, hv]
      omega
    · simp only [List.cons_append, List.nil_append, List.length_cons, hl32]
      omega
    · simp only [U64_TO_WORDS, List.cons_append, List.nil_append, List.length_cons, hl64]
    · intro v hv
      simp only [List.cons_append, List.nil_append, List.mem_cons] at hv
      have h32 : 2 ^ RADIX Config.cpu32 = 2 ^ 32 := rfl
      rcases hv with rfl | rfl | hv
      · rw [h32]; omega
      · rw [h32]; omega
      · exact hw32 v hv
    · intro v hv
      simp only [U64_TO_WORDS, List.cons_append, List.nil_append, List.mem_cons] at hv
      have h64 : 2 ^ RADIX Config.cpu64 = 2 ^ 64 := rfl
      rcases hv with rfl | hv
      · rw [h64]; exact hx
      · exact hw64 v hv

/-! ## Field element layout -/

/-- C11: in both build configurations `NWORDS_FIELD` is the least `n` with
`n * RADIX ≥ BITS_FIELD = 434` (7 with 64-bit words, 14 with 32-bit words), and in
both the element spans exactly `NWORDS_FIELD * RADIX = 448` bits. -/
theorem NWORDS_FIELD_minimal (c : Config) :
    IsLeast {n : Nat | BITS_FIELD ≤ n * RADIX c} (NWORDS_FIELD c) ∧
      NWORDS_FIELD c * RADIX c = 448 ∧ BITS_FIELD = 434 ∧
      RADIX Config.cpu64 = 64 ∧ NWORDS_FIELD Config.cpu64 = 7 ∧
      RADIX Config.cpu32 = 32 ∧ NWORDS_FIELD Config.cpu32 = 14 := by
  refine ⟨⟨?_, ?_⟩, ?_, rfl, rfl, rfl, rfl, rfl⟩
  · show BITS_FIELD ≤ NWORDS_FIELD c * RADIX c
    cases c <;> decide
  · intro n hn
    have hn2 : BITS_FIELD ≤ n * RADIX c := hn
    cases c
    · have h64 : RADIX Config.cpu64 = 64 := rfl
      have h7 : NWORDS_FIELD Config.cpu64 = 7 := rfl
      have hb : BITS_FIELD = 434 := rfl
      rw [h64, hb] at hn2
      rw [h7]; omega
    · have h32 : RADIX Config.cpu32 = 32 := rfl
      have h14 : NWORDS_FIELD Config.cpu32 = 14 := rfl
      have hb : BITS_FIELD = 434 := rfl
      rw [h32, hb] at hn2
      rw [h14]; omega
  · cases c <;> rfl

/-- C12: for every 64-bit constant `x` the 32-bit expansion `U64_TO_WORDS(x)` is the two
words `lo, hi` in that order, both below `2^32`, with `lo + 2^32 * hi = x`; hence for
every list of 64-bit constants the 32-bit limb array built with `U64_TO_WORDS` denotes
the same integer as the 64-bit limb array built from the same constants, with twice
as many words. -/
theorem U64_TO_WORDS_value (x : Nat) (xs : List Nat) (hx : x < 2 ^ 64)
    (hxs : ∀ v ∈ xs, v < 2 ^ 64) :
    (∃ lo hi, U64_TO_WORDS Config.cpu32 x = [lo, hi] ∧ lo + 2 ^ 32 * hi = x ∧
        lo < 2 ^ 32 ∧ hi < 2 ^ 32) ∧
      U64_TO_WORDS Config.cpu64 x = [x] ∧
      limbs_value (RADIX Config.cpu32) (table_of_u64 Config.cpu32 xs)
        = limbs_value (RADIX Config.cpu64) (table_of_u64 Config.cpu64 xs) ∧
      (table_of_u64 Config.cpu64 xs).length = xs.length ∧
      (table_of_u64 Config.cpu32 xs).length = 2 * xs.length ∧
      IsWords Config.cpu32 (table_of_u64 Config.cpu32 xs) := by
  obtain ⟨hv, hl32, hl64, hw32, _⟩ := table_of_u64_value xs hxs
  refine ⟨⟨x % 2 ^ 32, x / 2 ^ 32, u64_to_words_cpu32 x hx, ?_, ?_, ?_⟩, rfl, hv, hl64, hl32, hw32⟩
  all_goals omega

/-- Instance of C12: a 7-entry table of 64-bit constants becomes a 14-word table of
the same value. -/
theorem U64_TO_WORDS_value_witness :
    U64_TO_WORDS Config.cpu32 0xFDC1767AE3000000 = [0xE3000000, 0xFDC1767A] ∧
      (table_of_u64 Config.cpu32 [0, 0, 0, 0xFDC1767AE3000000, 1, 2, 3]).length = 2 * 7 ∧
      limbs_value (RADIX Config.cpu32) (table_of_u64 Config.cpu32 [0, 0, 0, 0xFDC1767AE3000000, 1, 2, 3])
        = limbs_value (RADIX Config.cpu64)
            (table_of_u64 Config.cpu64 [0, 0, 0, 0xFDC1767AE3000000, 1, 2, 3]) :=
  ⟨by decide,
    (U64_TO_WORDS_value 0xFDC1767AE3000000 [0, 0, 0, 0xFDC1767AE3000000, 1, 2, 3] (by decide)
      (by decide)).2.2.2.2.1,
    (U64_TO_WORDS_value 0xFDC1767AE3000000 [0, 0, 0, 0xFDC1767AE3000000, 1, 2, 3] (by decide)
      (by decide)).2.2.1⟩

/-! ## Auxiliary facts on carry and borrow chains -/

/-- One `ADDC` step, as linear facts. -/
theorem addc_exact (c : Config) (carryIn addend1 addend2 : Nat) (hc : carryIn ≤ 1)
    (h1 : addend1 < 2 ^ RADIX c) (h2 : addend2 < 2 ^ RADIX c) :
    (ADDC c carryIn addend1 addend2).1 ≤ 1 ∧
      (ADDC c carryIn addend1 addend2).2 < 2 ^ RADIX c ∧
      (ADDC c carryIn addend1 addend2).2 + 2 ^ RADIX c * (ADDC c carryIn addend1 addend2).1
        = addend1 + addend2 + carryIn := by
  rw [addc_val c carryIn addend1 addend2 hc h1 h2]
  have hW := two_pow_radix c
  generalize 2 ^ RADIX c = W at *
  dsimp only
  by_cases hcar : W ≤ addend1 + addend2 + carryIn
  · rw [if_pos hcar]
    rcases hW with rfl | rfl <;> omega
  · rw [if_neg hcar]
    rcases hW with rfl | rfl <;> omega

/-- One `SUBC` step, as linear facts. -/
theorem subc_exact (c : Config) (borrowIn minuend subtrahend : Nat) (hb : borrowIn ≤ 1)
    (h1 : minuend < 2 ^ RADIX c) (h2 : subtrahend < 2 ^ RADIX c) :
    (SUBC c borrowIn minuend subtrahend).1 ≤ 1 ∧
      (SUBC c borrowIn minuend subtrahend).2 < 2 ^ RADIX c ∧
      (SUBC c borrowIn minuend subtrahend).2 + subtrahend + borrowIn
        = minuend + 2 ^ RADIX c * (SUBC c borrowIn minuend subtrahend).1 := by
  rw [subc_val c borrowIn minuend subtrahend hb h1 h2]
  have hW := two_pow_radix c
  generalize 2 ^ RADIX c = W at *
  dsimp only
  by_cases hbor : minuend < subtrahend + borrowIn
  · rw [if_pos hbor]
    rcases hW with rfl | rfl <;> omega
  · rw [if_neg hbor]
    rcases hW with rfl | rfl <;> omega

theorem isWords_cons (c : Config) (x : Nat) (a : List Nat) :
    IsWords c (x :: a) ↔ x < 2 ^ RADIX c ∧ IsWords c a := by
  simp [IsWords]

/-- A limb array of `n` words denotes an integer below `2 ^ (RADIX * n)`. -/
theorem limbs_value_lt (c : Config) (a : List Nat) (ha : IsWords c a) :
    limbs_value (RADIX c) a < 2 ^ (RADIX c * a.length) := by
  induction a with
  | nil => simp [limbs_value]
  | cons x a ih =>
    obtain ⟨hx, ha2⟩ := (isWords_cons c x a).1 ha
    have hv := ih ha2
    have hpow : 2 ^ (RADIX c * (x :: a).length) = 2 ^ RADIX c * 2 ^ (RADIX c * a.length) := by
      rw [List.length_cons, Nat.mul_succ, Nat.pow_add, Nat.mul_comm]
    have hmul : 2 ^ RADIX c * (limbs_value (RADIX c) a + 1)
        ≤ 2 ^ RADIX c * 2 ^ (RADIX c * a.length) := Nat.mul_le_mul_left _ hv
    rw [Nat.mul_succ] at hmul
    rw [hpow]
    simp only [limbs_value]
    omega

/-- Chained `ADDC` from any incoming carry bit: the sum limbs and the final carry
denote the exact sum. -/
theorem addc_chain_val (c : Config) : ∀ (a b : List Nat) (carry : Nat), carry ≤ 1 →
    a.length = b.length → IsWords c a → IsWords c b →
    (ADDC_chain c carry a b).2.length = a.length ∧ IsWords c (ADDC_chain c carry a b).2 ∧
      (ADDC_chain c carry a b).1 ≤ 1 ∧
      limbs_value (RADIX c) (ADDC_chain c carry a b).2
          + (ADDC_chain c carry a b).1 * 2 ^ (RADIX c * a.length)
        = limbs_value (RADIX c) a + limbs_value (RADIX c) b + carry := by
  intro a
  induction a with
  | nil =>
    intro b carry hc hlen _ _
    cases b with
    | nil => simp [ADDC_chain, limbs_value, IsWords, hc]
    | cons y b => simp at hlen
  | cons x a ih =>
    intro b carry hc hlen ha hb
    cases b with
    | nil => simp at hlen
    | cons y b =>
      obtain ⟨hx, ha2⟩ := (isWords_cons c x a).1 ha
      obtain ⟨hy, hb2⟩ := (isWords_cons c y b).1 hb
      obtain ⟨hc1, hs, hstep⟩ := addc_exact c carry x y hc hx hy
      obtain ⟨hl, hw, hco, hval⟩ := ih b (ADDC c carry x y).1 hc1 (by simpa using hlen) ha2 hb2
      have hpow : 2 ^ (RADIX c * (x :: a).length) = 2 ^ RADIX c * 2 ^ (RADIX c * a.length) := by
        rw [List.length_cons, Nat.mul_succ, Nat.pow_add, Nat.mul_comm]
      simp only [ADDC_chain]
      refine ⟨by simp [hl], (isWords_cons c _ _).2 ⟨hs, hw⟩, hco, ?_⟩
      rw [hpow]
      simp only [limbs_value]
      generalize 2 ^ RADIX c = W at *
      generalize 2 ^ (RADIX c * a.length) = P at *
      nlinarith [hstep, hval]

/-- Chained `SUBC` from any incoming borrow bit: the difference limbs and the final
borrow denote the exact difference. -/
theorem subc_chain_val (c : Config) : ∀ (a b : List Nat) (borrow : Nat), borrow ≤ 1 →
    a.length = b.length → IsWords c a → IsWords c b →
    (SUBC_chain c borrow a b).2.length = a.length ∧ IsWords c (SUBC_chain c borrow a b).2 ∧
      (SUBC_chain c borrow a b).1 ≤ 1 ∧
      limbs_value (RADIX c) (SUBC_chain c borrow a b).2 + limbs_value (RADIX c) b + borrow
        = limbs_value (RADIX c) a + (SUBC_chain c borrow a b).1 * 2 ^ (RADIX c * a.length) := by
  intro a
  induction a with
  | nil =>
    intro b borrow hc hlen _ _
    cases b with
    | nil => simp [SUBC_chain, limbs_value, IsWords, hc]
    | cons y b => simp at hlen
  | cons x a ih =>
    intro b borrow hc hlen ha hb
    cases b with
    | nil => simp at hlen
    | cons y b =>
      obtain ⟨hx, ha2⟩ := (isWords_cons c x a).1 ha
      obtain ⟨hy, hb2⟩ := (isWords_cons c y b).1 hb
      obtain ⟨hc1, hs, hstep⟩ := subc_exact c borrow x y hc hx hy
      obtain ⟨hl, hw, hco, hval⟩ := ih b (SUBC c borrow x y).1 hc1 (by simpa using hlen) ha2 hb2
      have hpow : 2 ^ (RADIX c * (x :: a).length) = 2 ^ RADIX c * 2 ^ (RADIX c * a.length) := by
        rw [List.length_cons, Nat.mul_succ, Nat.pow_add, Nat.mul_comm]
      simp only [SUBC_chain]
      refine ⟨by simp [hl], (isWords_cons c _ _).2 ⟨hs, hw⟩, hco, ?_⟩
      rw [hpow]
      simp only [limbs_value]
      generalize 2 ^ RADIX c = W at *
      generalize 2 ^ (RADIX c * a.length) = P at *
      nlinarith [hstep, hval]

/-! ## Auxiliary facts on the flag outputs -/

/-- The carry of `ADDC` is a bit for every incoming value. -/
theorem addc_carry_le_one (c : Config) (carryIn addend1 addend2 : Nat) :
    (ADDC c carryIn addend1 addend2).1 ≤ 1 := by
  have hpos := two_pow_pos (RADIX c)
  have hcw : word_cast c carryIn < 2 ^ RADIX c := Nat.mod_lt _ hpos
  have ht : word_add c addend1 (word_cast c carryIn) < 2 ^ RADIX c := Nat.mod_lt _ hpos
  have hs : word_add c addend2 (word_add c addend1 (word_cast c carryIn)) < 2 ^ RADIX c :=
    Nat.mod_lt _ hpos
  unfold ADDC
  dsimp only
  rw [ct_uint_lt_val c _ _ ht hcw, ct_uint_lt_val c _ _ hs ht, m2b_mask_or]
  split <;> omega

/-- The borrow of `SUBC` is a bit for every incoming value. -/
theorem subc_borrow_le_one (c : Config) (borrowIn minuend subtrahend : Nat)
    (h1 : minuend < 2 ^ RADIX c) (h2 : subtrahend < 2 ^ RADIX c) :
    (SUBC c borrowIn minuend subtrahend).1 ≤ 1 := by
  have hpos := two_pow_pos (RADIX c)
  have ht : word_sub c minuend subtrahend < 2 ^ RADIX c := Nat.mod_lt _ hpos
  have hm : M2B c (ct_uint_lt c minuend subtrahend) = if minuend < subtrahend then 1 else 0 := by
    have := m2b_mask_or c (minuend < subtrahend) False
    simpa [ct_uint_lt_val c _ _ h1 h2] using this
  unfold SUBC
  dsimp only
  rw [hm, ct_uint_eq_val c _ _ ht hpos]
  have hbit : borrowIn &&& 1 = borrowIn % 2 := Nat.and_one_is_mod borrowIn
  by_cases hz : word_sub c minuend subtrahend = 0
  · rw [if_pos hz, hbit]
    rcases Nat.mod_two_eq_zero_or_one borrowIn with h | h <;> rw [h] <;>
      by_cases hlt : minuend < subtrahend <;> simp [hlt]
  · rw [if_neg hz, Nat.and_zero, Nat.or_zero]
    split <;> omega

/-! ## Byte select by the low bit -/

/-- C14: for every byte `flag` and all bytes `in1`, `in2`, `ct_select_8(flag, in1, in2)`
is `in1` when the least significant bit of `flag` is 1 and `in2` when it is 0; flags with
the same least significant bit give the same result; in particular `pick == 1` gives
`in1` and `pick == 0` gives `in2`. -/
theorem ct_select_8_low_bit (flag in1 in2 : Nat) (_hf : flag < 256) (h1 : in1 < 256)
    (h2 : in2 < 256) :
    (flag % 2 = 1 → ct_select_8 flag in1 in2 = in1) ∧
      (flag % 2 = 0 → ct_select_8 flag in1 in2 = in2) ∧
      (∀ flag2, flag2 < 256 → flag2 % 2 = flag % 2 →
        ct_select_8 flag2 in1 in2 = ct_select_8 flag in1 in2) ∧
      ct_select_8 1 in1 in2 = in1 ∧ ct_select_8 0 in1 in2 = in2 := by
  refine ⟨?_, ?_, ?_, ?_, ?_⟩
  · intro h
    rw [ct_select_8_val flag in1 in2 h1 h2, if_pos h]
  · intro h
    rw [ct_select_8_val flag in1 in2 h1 h2, if_neg (by omega)]
  · intro flag2 _ h
    rw [ct_select_8_val flag2 in1 in2 h1 h2, ct_select_8_val flag in1 in2 h1 h2, h]
  · rw [ct_select_8_val 1 in1 in2 h1 h2, if_pos (by decide)]
  · rw [ct_select_8_val 0 in1 in2 h1 h2, if_neg (by decide)]

/-- Instance of C14: the flag `0x03` has its low bit set and selects `in1 = 5`, as the
flag `1` does. -/
theorem ct_select_8_low_bit_witness :
    0x03 < 256 ∧ 5 < 256 ∧ 9 < 256 ∧ ct_select_8 0x03 5 9 = 5 ∧
      ct_select_8 1 5 9 = ct_select_8 0x03 5 9 :=
  ⟨by decide, by decide, by decide,
    (ct_select_8_low_bit 0x03 5 9 (by decide) (by decide) (by decide)).1 (by decide),
    (ct_select_8_low_bit 0x03 5 9 (by decide) (by decide) (by decide)).2.2.1 1 (by decide)
      (by decide)⟩

/-! ## Multi-limb addition and subtraction -/

/-- C15: for every `n` and all `n`-limb little-endian word arrays `a`, `b`, applying
`ADDC` limb by limb from index 0 with initial carry 0, each `carryOut` fed as the next
`carryIn`, yields an `n`-limb word array `s` and a final carry `c` in `{0, 1}` with
`value(s) + c * 2^(n*w) = value(a) + value(b)`. -/
theorem ADDC_chain_exact (c : Config) (n : Nat) (a b : List Nat) (hla : a.length = n)
    (hlb : b.length = n) (ha : IsWords c a) (hb : IsWords c b) :
    (ADDC_chain c 0 a b).2.length = n ∧ IsWords c (ADDC_chain c 0 a b).2 ∧
      ((ADDC_chain c 0 a b).1 = 0 ∨ (ADDC_chain c 0 a b).1 = 1) ∧
      limbs_value (RADIX c) (ADDC_chain c 0 a b).2 + (ADDC_chain c 0 a b).1 * 2 ^ (n * RADIX c)
        = limbs_value (RADIX c) a + limbs_value (RADIX c) b := by
  obtain ⟨hl, hw, hco, hval⟩ := addc_chain_val c a b 0 (by omega) (by omega) ha hb
  have hpow : 2 ^ (RADIX c * a.length) = 2 ^ (n * RADIX c) := by rw [hla, Nat.mul_comm]
  rw [hpow] at hval
  exact ⟨by omega, hw, by omega, by omega⟩

/-- Instance of C15: `(2^64 - 1) + 1` on two 32-bit limbs gives limbs `0, 0` and a final
carry. -/
theorem ADDC_chain_exact_witness :
    IsWords Config.cpu32 [2 ^ 32 - 1, 2 ^ 32 - 1] ∧ IsWords Config.cpu32 [1, 0] ∧
      limbs_value (RADIX Config.cpu32) (ADDC_chain Config.cpu32 0 [2 ^ 32 - 1, 2 ^ 32 - 1] [1, 0]).2
          + (ADDC_chain Config.cpu32 0 [2 ^ 32 - 1, 2 ^ 32 - 1] [1, 0]).1
            * 2 ^ (2 * RADIX Config.cpu32)
        = limbs_value (RADIX Config.cpu32) [2 ^ 32 - 1, 2 ^ 32 - 1]
          + limbs_value (RADIX Config.cpu32) [1, 0] :=
  ⟨by decide, by decide,
    (ADDC_chain_exact Config.cpu32 2 [2 ^ 32 - 1, 2 ^ 32 - 1] [1, 0] rfl rfl (by decide)
      (by decide)).2.2.2⟩

/-- C16: for every `n` and all `n`-limb little-endian word arrays `a`, `b`, applying
`SUBC` limb by limb from index 0 with initial borrow 0, each `borrowOut` fed as the next
`borrowIn`, yields an `n`-limb word array `d` and a final borrow `c` in `{0, 1}` with
`value(d) - c * 2^(n*w) = value(a) - value(b)` over the integers; the final borrow is 1
exactly when `value(a) < value(b)`. -/
theorem SUBC_chain_exact (c : Config) (n : Nat) (a b : List Nat) (hla : a.length = n)
    (hlb : b.length = n) (ha : IsWords c a) (hb : IsWords c b) :
    (SUBC_chain c 0 a b).2.length = n ∧ IsWords c (SUBC_chain c 0 a b).2 ∧
      ((SUBC_chain c 0 a b).1 = 0 ∨ (SUBC_chain c 0 a b).1 = 1) ∧
      (limbs_value (RADIX c) (SUBC_chain c 0 a b).2 : Int)
          - ((SUBC_chain c 0 a b).1 : Int) * 2 ^ (n * RADIX c)
        = (limbs_value (RADIX c) a : Int) - (limbs_value (RADIX c) b : Int) ∧
      ((SUBC_chain c 0 a b).1 = 1 ↔ limbs_value (RADIX c) a < limbs_value (RADIX c) b) := by
  obtain ⟨hl, hw, hco, hval⟩ := subc_chain_val c a b 0 (by omega) (by omega) ha hb
  have hd := limbs_value_lt c _ hw
  have hpow : 2 ^ (RADIX c * a.length) = 2 ^ (n * RADIX c) := by rw [hla, Nat.mul_comm]
  rw [hl, hpow] at hd
  rw [hpow] at hval
  have hcast : ((2 : Int) ^ (n * RADIX c)) = ((2 ^ (n * RADIX c) : Nat) : Int) := by
    push_cast; rfl
  rw [hcast]
  generalize 2 ^ (n * RADIX c) = P at *
  have hcases : (SUBC_chain c 0 a b).1 = 0 ∨ (SUBC_chain c 0 a b).1 = 1 := by omega
  refine ⟨by omega, hw, hcases, ?_, ?_⟩
  · rcases hcases with h | h <;> rw [h] at hval ⊢ <;> push_cast <;> omega
  · rcases hcases with h | h <;> rw [h] at hval ⊢ <;> omega

/-- Instance of C16: `0 - 1` on two 32-bit limbs gives limbs `2^32 - 1, 2^32 - 1` and a
final borrow. -/
theorem SUBC_chain_exact_witness :
    IsWords Config.cpu32 [0, 0] ∧ IsWords Config.cpu32 [1, 0] ∧
      ((SUBC_chain Config.cpu32 0 [0, 0] [1, 0]).1 = 1 ↔
        limbs_value (RADIX Config.cpu32) [0, 0] < limbs_value (RADIX Config.cpu32) [1, 0]) :=
  ⟨by decide, by decide,
    (SUBC_chain_exact Config.cpu32 2 [0, 0] [1, 0] rfl rfl (by decide) (by decide)).2.2.2.2⟩

/-! ## Agreement of the two limb widths -/

/-- C17: for all 64-bit words `a`, `b` and every flag in `{0, 1}`, the 64-bit `ADDC`
(resp. `SUBC`) returns the same carry (resp. borrow) as two chained 32-bit steps, first
on the low halves of `a` and `b` with that flag, then on the high halves with the
intermediate carry (resp. borrow); the two 32-bit outputs are the low and the high half
of the 64-bit output. -/
theorem ADDC_SUBC_width_agree (flag a b : Nat) (hf : flag = 0 ∨ flag = 1) (ha : a < 2 ^ 64)
    (hb : b < 2 ^ 64) :
    ((ADDC Config.cpu64 flag a b).1
        = (ADDC Config.cpu32 (ADDC Config.cpu32 flag (a % 2 ^ 32) (b % 2 ^ 32)).1
            (a / 2 ^ 32) (b / 2 ^ 32)).1 ∧
      (ADDC Config.cpu64 flag a b).2 % 2 ^ 32
        = (ADDC Config.cpu32 flag (a % 2 ^ 32) (b % 2 ^ 32)).2 ∧
      (ADDC Config.cpu64 flag a b).2 / 2 ^ 32
        = (ADDC Config.cpu32 (ADDC Config.cpu32 flag (a % 2 ^ 32) (b % 2 ^ 32)).1
            (a / 2 ^ 32) (b / 2 ^ 32)).2) ∧
    ((SUBC Config.cpu64 flag a b).1
        = (SUBC Config.cpu32 (SUBC Config.cpu32 flag (a % 2 ^ 32) (b % 2 ^ 32)).1
            (a / 2 ^ 32) (b / 2 ^ 32)).1 ∧
      (SUBC Config.cpu64 flag a b).2 % 2 ^ 32
        = (SUBC Config.cpu32 flag (a % 2 ^ 32) (b % 2 ^ 32)).2 ∧
      (SUBC Config.cpu64 flag a b).2 / 2 ^ 32
        = (SUBC Config.cpu32 (SUBC Config.cpu32 flag (a % 2 ^ 32) (b % 2 ^ 32)).1
            (a / 2 ^ 32) (b / 2 ^ 32)).2) := by
  have h64 : 2 ^ RADIX Config.cpu64 = 18446744073709551616 := by decide
  have h32 : 2 ^ RADIX Config.cpu32 = 4294967296 := by decide
  have hf1 : flag ≤ 1 := by omega
  have halo : a % 2 ^ 32 < 2 ^ RADIX Config.cpu32 := by rw [h32]; omega
  have hblo : b % 2 ^ 32 < 2 ^ RADIX Config.cpu32 := by rw [h32]; omega
  have hahi : a / 2 ^ 32 < 2 ^ RADIX Config.cpu32 := by rw [h32]; omega
  have hbhi : b / 2 ^ 32 < 2 ^ RADIX Config.cpu32 := by rw [h32]; omega
  have ha64 : a < 2 ^ RADIX Config.cpu64 := by rw [h64]; omega
  have hb64 : b < 2 ^ RADIX Config.cpu64 := by rw [h64]; omega
  constructor
  · obtain ⟨w1, w2, w3⟩ := addc_exact Config.cpu64 flag a b hf1 ha64 hb64
    obtain ⟨l1, l2, l3⟩ := addc_exact Config.cpu32 flag (a % 2 ^ 32) (b % 2 ^ 32) hf1 halo hblo
    obtain ⟨u1, u2, u3⟩ := addc_exact Config.cpu32
      (ADDC Config.cpu32 flag (a % 2 ^ 32) (b % 2 ^ 32)).1 (a / 2 ^ 32) (b / 2 ^ 32) l1 hahi hbhi
    rw [h64] at w2 w3
    rw [h32] at l2 l3 u2 u3
    omega
  · obtain ⟨w1, w2, w3⟩ := subc_exact Config.cpu64 flag a b hf1 ha64 hb64
    obtain ⟨l1, l2, l3⟩ := subc_exact Config.cpu32 flag (a % 2 ^ 32) (b % 2 ^ 32) hf1 halo hblo
    obtain ⟨u1, u2, u3⟩ := subc_exact Config.cpu32
      (SUBC Config.cpu32 flag (a % 2 ^ 32) (b % 2 ^ 32)).1 (a / 2 ^ 32) (b / 2 ^ 32) l1 hahi hbhi
    rw [h64] at w2 w3
    rw [h32] at l2 l3 u2 u3
    omega

/-- Instance of C17: adding `1` with carry-in `1` to `2^64 - 1`, where the carry crosses
from the low to the high half. -/
theorem ADDC_SUBC_width_agree_witness :
    2 ^ 64 - 1 < 2 ^ 64 ∧
      (ADDC Config.cpu64 1 (2 ^ 64 - 1) 1).1
        = (ADDC Config.cpu32 (ADDC Config.cpu32 1 ((2 ^ 64 - 1) % 2 ^ 32) (1 % 2 ^ 32)).1
            ((2 ^ 64 - 1) / 2 ^ 32) (1 / 2 ^ 32)).1 ∧
      (SUBC Config.cpu64 1 (2 ^ 64 - 1) 1).2 % 2 ^ 32
        = (SUBC Config.cpu32 1 ((2 ^ 64 - 1) % 2 ^ 32) (1 % 2 ^ 32)).2 :=
  ⟨by decide,
    (ADDC_SUBC_width_agree 1 (2 ^ 64 - 1) 1 (Or.inr rfl) (by decide) (by decide)).1.1,
    (ADDC_SUBC_width_agree 1 (2 ^ 64 - 1) 1 (Or.inr rfl) (by decide) (by decide)).2.2.1⟩

/-! ## Flag outputs -/

/-- C18: for all words `addend1`, `addend2`, `minuend`, `subtrahend` and for every word
value of `carryIn` and `borrowIn`, not only 0 and 1, the `carryOut` of `ADDC` and the
`borrowOut` of `SUBC` are 0 or 1, so an output flag always meets the `{0, 1}`
precondition of the next step of a chain. -/
theorem flag_outputs_boolean (c : Config) (carryIn borrowIn addend1 addend2 minuend
    subtrahend : Nat) (_hc : carryIn < 2 ^ RADIX c) (_hb : borrowIn < 2 ^ RADIX c)
    (_h1 : addend1 < 2 ^ RADIX c) (_h2 : addend2 < 2 ^ RADIX c)
    (h3 : minuend < 2 ^ RADIX c) (h4 : subtrahend < 2 ^ RADIX c) :
    ((ADDC c carryIn addend1 addend2).1 = 0 ∨ (ADDC c carryIn addend1 addend2).1 = 1) ∧
      ((SUBC c borrowIn minuend subtrahend).1 = 0 ∨
        (SUBC c borrowIn minuend subtrahend).1 = 1) := by
  have ha := addc_carry_le_one c carryIn addend1 addend2
  have hs := subc_borrow_le_one c borrowIn minuend subtrahend h3 h4
  omega

/-- Instance of C18 with the incoming flags `2^32 - 1` and `6`, which are not bits. -/
theorem flag_outputs_boolean_witness :
    2 ^ 32 - 1 < 2 ^ RADIX Config.cpu32 ∧ 6 < 2 ^ RADIX Config.cpu32 ∧
      ((ADDC Config.cpu32 (2 ^ 32 - 1) 7 9).1 = 0 ∨ (ADDC Config.cpu32 (2 ^ 32 - 1) 7 9).1 = 1) ∧
      ((SUBC Config.cpu32 6 5 5).1 = 0 ∨ (SUBC Config.cpu32 6 5 5).1 = 1) :=
  ⟨by decide, by decide,
    flag_outputs_boolean Config.cpu32 (2 ^ 32 - 1) 6 7 9 5 5 (by decide) (by decide)
      (by decide) (by decide) (by decide) (by decide)⟩

/-! ## Parameter table -/

set_option exponentiation.threshold 512 in
/-- C19: with `p434 = 2^216 * 3^137 - 1`, a 434-bit number (`216 = 2 * A_max`,
`137 = B_max`), in both configurations the lowest `ZERO_WORDS` words of the little-endian
word representation of `p434 + 1` are zero and the word at index `ZERO_WORDS` is not,
where `ZERO_WORDS` is 3 with 64-bit words and 6 with 32-bit words. -/
theorem ZERO_WORDS_spec (c : Config) :
    (∀ i : Fin (ZERO_WORDS c), word_at c (p434 + 1) i = 0) ∧
      word_at c (p434 + 1) (ZERO_WORDS c) ≠ 0 ∧
      limbs_value (RADIX c) ((List.range (NWORDS_FIELD c)).map (word_at c (p434 + 1)))
        = p434 + 1 ∧
      p434 + 1 = 2 ^ (2 * A_max) * 3 ^ B_max ∧
      2 ^ (BITS_FIELD - 1) ≤ p434 ∧ p434 < 2 ^ BITS_FIELD ∧
      RADIX Config.cpu64 = 64 ∧ ZERO_WORDS Config.cpu64 = 3 ∧
      RADIX Config.cpu32 = 32 ∧ ZERO_WORDS Config.cpu32 = 6 := by
  cases c <;> decide

/-! ## Auxiliary facts on chain lengths -/

end P434
